import Mathlib

/-!
# numerical_calculus: ring buffer and finite-difference estimators

Shallow embedding of `src/ring_buffer/ring_buffer.c` and of the estimators of
`src/main.c`.

Modelling conventions.

* A C `double` is modelled by an exact rational number (`ℚ`); `0.0` is `0`.
  The storage operations never compute with the samples, so for them the
  choice of number type is immaterial. Division by a zero `double` (C yields
  an infinity or a NaN) has no counterpart in `ℚ`, where `x / 0 = 0`;
  statements about a quotient therefore assume a non-zero divisor.
* `uint16_t` values are natural numbers below `65536`; where the C code stores
  a computed value into a `uint16_t` the model reduces it modulo `65536`.
* `int16_t` values are integers; a value passed to an `int16_t` parameter goes
  through `int16_t_of` (two's complement wrap-around).
* The pointer `rb->buffer` is `none` for `NULL` and `some cells` for a block of
  `cells.length` doubles.
* An operation whose C execution has undefined behaviour (dereferencing `NULL`,
  reading or writing outside the allocated block, `%` by zero) returns `none`.
-/

namespace NumericalCalculus

/-- The struct `ring_buffer` of `ring_buffer.h`. -/
structure ring_buffer where
  /-- The field `double * buffer`: `none` is `NULL`. -/
  buffer : Option (List ℚ)
  /-- The field `uint16_t size`. -/
  size : Nat
  /-- The field `uint16_t index`: the write cursor. -/
  index : Nat
deriving DecidableEq, Repr

/-- Conversion of an integer to `int16_t` (wrap-around modulo `2^16`). -/
def int16_t_of (x : Int) : Int :=
  (x + 32768) % 65536 - 32768

/-- The function `ring_buffer_init`. `malloc_ok` tells whether `malloc` returns a
block; `rb` is the content of `*rb` before the call and the result is its
content after the call (the C function returns `void`). -/
def ring_buffer_init (malloc_ok : Bool) (rb : ring_buffer) (size : Nat) : ring_buffer :=
  if size = 0 then
    rb
  else if malloc_ok then
    { buffer := some (List.replicate size 0), size := size, index := 0 }
  else
    { rb with buffer := none }

/-- The function `ring_buffer_add`: the content of `*rb` after the call, or
`none` when the call has undefined behaviour. -/
def ring_buffer_add (rb : ring_buffer) (item : ℚ) : Option ring_buffer :=
  match rb.buffer with
  | none => none
  | some cells =>
    if rb.index < cells.length then
      if rb.size = 0 then
        none
      else
        some { buffer := some (cells.set rb.index item)
               size := rb.size
               index := (rb.index + 1) % rb.size % 65536 }
    else
      none

/-- The expression `rb->buffer[i]` read as an rvalue: `none` when the pointer is
`NULL` or `i` is outside the allocated block. -/
def slot (rb : ring_buffer) (i : Nat) : Option ℚ :=
  match rb.buffer with
  | none => none
  | some cells => cells[i]?

/-- The function `ring_buffer_get_item`; `index` is the `int16_t` argument. -/
def ring_buffer_get_item (rb : ring_buffer) (index : Int) : Option ℚ :=
  if index < 0 then
    some 0
  else if index ≥ (rb.size : Int) then
    slot rb rb.size
  else
    slot rb index.toNat

/-- The function `calculate_derivative` of `main.c`; `index` is the `uint16_t`
argument, converted to `int16_t` at both calls of `ring_buffer_get_item`
(`index - 1` is computed in `int`). -/
def calculate_derivative (rb : ring_buffer) (index : Nat) (time_interval : ℚ) : Option ℚ :=
  match ring_buffer_get_item rb (int16_t_of (index : Int)) with
  | none => none
  | some x_this =>
    match ring_buffer_get_item rb (int16_t_of ((index : Int) - 1)) with
    | none => none
    | some x_last =>
      let delta := x_this - x_last
      some (delta / time_interval)

/-- A sequence of `ring_buffer_add` calls, one per element of `items`, in order
(the shape of the fill loop of `main`). -/
def add_all : ring_buffer → List ℚ → Option ring_buffer
  | rb, [] => some rb
  | rb, item :: items =>
    match ring_buffer_add rb item with
    | none => none
    | some rb' => add_all rb' items

/-- A validly constructed store: the fields are in `uint16_t` range, the capacity
is positive, the buffer is a block of exactly `size` doubles and the write cursor
is below the capacity. -/
def valid (rb : ring_buffer) : Prop :=
  0 < rb.size ∧ rb.size < 65536 ∧ rb.index < rb.size ∧
    ∃ cells, rb.buffer = some cells ∧ cells.length = rb.size

/-- The store `main` builds for `dt = 1`: the cubes of 1..10 in slots 0..9, the
write cursor back at 0. -/
def cubes_store : ring_buffer :=
  ⟨some [1, 8, 27, 64, 125, 216, 343, 512, 729, 1000], 10, 0⟩

/-- The loop of `calculate_integral`: the value of `integral` after the
iterations `i = 0 .. m - 1`. The `uint16_t` counter `i` is converted to
`int16_t` at the first call of `ring_buffer_get_item`, and `i - 1`, computed in
`int`, at the second. -/
def calculate_integral_loop (rb : ring_buffer) : Nat → Option ℚ
  | 0 => some 0
  | i + 1 =>
    match calculate_integral_loop rb i with
    | none => none
    | some integral =>
      match ring_buffer_get_item rb (int16_t_of (i : Int)) with
      | none => none
      | some x_this =>
        match ring_buffer_get_item rb (int16_t_of ((i : Int) - 1)) with
        | none => none
        | some x_last => some (integral + (x_this + x_last))

/-- The function `calculate_integral` of `main.c`: the loop runs while
`i < rb->size`, then `integral *= time_interval; integral /= 2.0`. -/
def calculate_integral (rb : ring_buffer) (time_interval : ℚ) : Option ℚ :=
  match calculate_integral_loop rb rb.size with
  | none => none
  | some integral => some (integral * time_interval / 2)

/-- The loop of `trapezoidal`: the value of `x_sum_between` after the
iterations `i = 1 .. m`. -/
def trapezoidal_loop (rb : ring_buffer) : Nat → Option ℚ
  | 0 => some 0
  | m + 1 =>
    match trapezoidal_loop rb m with
    | none => none
    | some x_sum_between =>
      match ring_buffer_get_item rb (int16_t_of ((m + 1 : Nat) : Int)) with
      | none => none
      | some x_this => some (x_sum_between + x_this)

/-- The function `trapezoidal` of `main.c`: the loop runs for `i = 1` while
`i < rb->size`, that is for `i = 1 .. size - 1`. -/
def trapezoidal (rb : ring_buffer) (time_interval : ℚ) : Option ℚ :=
  match ring_buffer_get_item rb 0 with
  | none => none
  | some x_first =>
    match trapezoidal_loop rb (rb.size - 1) with
    | none => none
    | some x_sum_between =>
      match ring_buffer_get_item rb (int16_t_of (rb.size : Int)) with
      | none => none
      | some x_last => some ((time_interval / 2) * (x_first + (2 * x_sum_between) + x_last))

/-- The function `f` of `main.c`: `y = x^3`. -/
def f (x : ℚ) : ℚ :=
  x * x * x

/-- The values the fill loop of `main` appends: `f (i * time_const)` for
`i = 1 .. n`, in order. -/
def samples (n : Nat) (time_const : ℚ) : List ℚ :=
  (List.range n).map (fun k => f (((k + 1 : Nat) : ℚ) * time_const))

/-- The composite trapezoidal rule as the specification words it, for the
points `xs` spaced `dt` apart: `dt/2 * (x[0] + 2 * sum(x[1..last-1]) + x[last])`. -/
def composite_trapezoid (xs : List ℚ) (dt : ℚ) : ℚ :=
  dt / 2 * (xs.headD 0 + 2 * xs.tail.dropLast.sum + xs.getLastD 0)

/-- The sum the specification gives for `calculate_integral`: over `i` in
`[0, m)`, `store[i] + store[i-1]`, with `store[-1]` taken as `0.0`. -/
def pair_sum (cells : List ℚ) (m : Nat) : ℚ :=
  (Finset.range m).sum (fun i => cells.getD i 0 + (if i = 0 then 0 else cells.getD (i - 1) 0))

/-! ## Auxiliary lemmas -/

theorem int16_t_of_small (i : Nat) (h : i < 32768) : int16_t_of (i : Int) = (i : Int) := by
  unfold int16_t_of
  omega

theorem int16_t_of_large (i : Nat) (h1 : 32768 ≤ i) (h2 : i < 65536) :
    int16_t_of (i : Int) < 0 := by
  unfold int16_t_of
  omega

theorem ring_buffer_get_item_in_range (rb : ring_buffer) (i : Nat) (h : i < rb.size) :
    ring_buffer_get_item rb (i : Int) = slot rb i := by
  unfold ring_buffer_get_item
  have h1 : ¬ ((i : Int) < 0) := by omega
  have h2 : ¬ ((i : Int) ≥ (rb.size : Int)) := by omega
  simp [h1, h2]

theorem ring_buffer_get_item_negative (rb : ring_buffer) (index : Int) (h : index < 0) :
    ring_buffer_get_item rb index = some 0 := by
  unfold ring_buffer_get_item
  simp [h]

theorem slot_init (rb : ring_buffer) (capacity i : Nat) (hpos : 0 < capacity) (hi : i < capacity) :
    slot (ring_buffer_init true rb capacity) i = some 0 := by
  have hne : capacity ≠ 0 := by omega
  simp [ring_buffer_init, slot, hne, hi]

theorem ring_buffer_add_valid (rb : ring_buffer) (cells : List ℚ) (v : ℚ)
    (hpos : 0 < rb.size) (h16 : rb.size < 65536) (hidx : rb.index < rb.size)
    (hbuf : rb.buffer = some cells) (hlen : cells.length = rb.size) :
    ring_buffer_add rb v =
      some ⟨some (cells.set rb.index v), rb.size, (rb.index + 1) % rb.size⟩ := by
  have hne : rb.size ≠ 0 := by omega
  have hlt : rb.index < cells.length := by omega
  have hm : (rb.index + 1) % rb.size < rb.size := Nat.mod_lt _ hpos
  have hmod : (rb.index + 1) % rb.size % 65536 = (rb.index + 1) % rb.size :=
    Nat.mod_eq_of_lt (by omega)
  simp [ring_buffer_add, hbuf, hlt, hne, hmod]

theorem add_all_snoc (rb : ring_buffer) (items : List ℚ) (v : ℚ) :
    add_all rb (items ++ [v]) =
      match add_all rb items with
      | none => none
      | some rb' => ring_buffer_add rb' v := by
  induction items generalizing rb with
  | nil =>
    simp only [List.nil_append, add_all]
    cases ring_buffer_add rb v <;> rfl
  | cons a items ih =>
    simp only [List.cons_append, add_all]
    cases ring_buffer_add rb a with
    | none => rfl
    | some rb' => exact ih rb'

theorem mod_ne_of_window (n m k : Nat) (h1 : m < k) (h2 : k < m + n) : m % n ≠ k % n := by
  intro h
  have hk : k = m + (k - m) := by omega
  have h3 : (m + (k - m)) % n = m % n := by rw [← hk]; exact h.symm
  have h4 : (k - m) % n = 0 := by
    have := Nat.ModEq.add_left_cancel' m (show m + (k - m) ≡ m + 0 [MOD n] from by
      simpa [Nat.ModEq] using h3)
    simpa [Nat.ModEq] using this
  have h5 : (k - m) % n = k - m := Nat.mod_eq_of_lt (by omega)
  omega

/-- State of the store after `ring_buffer_init` with capacity `n` followed by
the appends of `items`: the cursor is `items.length % n`, each of the last `n`
appended values, the one numbered `m` (from 0), sits in slot `m % n`, and the
slots not yet written hold zero. -/
theorem add_all_init_state (rb0 : ring_buffer) (n : Nat) (hpos : 0 < n) (h16 : n < 65536)
    (items : List ℚ) :
    ∃ cells, add_all (ring_buffer_init true rb0 n) items
        = some ⟨some cells, n, items.length % n⟩ ∧
      cells.length = n ∧
      (∀ m, m < items.length → items.length ≤ m + n → cells[m % n]? = items[m]?) ∧
      (∀ i, items.length ≤ i → i < n → cells[i]? = some 0) := by
  have hne : n ≠ 0 := by omega
  induction items using List.reverseRecOn with
  | nil =>
    refine ⟨List.replicate n 0, ?_, by simp, ?_, ?_⟩
    · simp [add_all, ring_buffer_init, hne]
    · intro m hm; simp at hm
    · intro i _ hi; simp [hi]
  | append_singleton items v ih =>
    obtain ⟨cells, hrun, hlen, hwin, hzero⟩ := ih
    have hc : items.length % n < n := Nat.mod_lt _ hpos
    refine ⟨cells.set (items.length % n) v, ?_, by simp [hlen], ?_, ?_⟩
    · rw [add_all_snoc, hrun]
      simp only
      rw [ring_buffer_add_valid _ cells v hpos h16 hc rfl hlen]
      simp [Nat.mod_add_mod]
    · intro m hm hw
      simp only [List.length_append, List.length_singleton] at hm hw
      by_cases hmk : m = items.length
      · subst hmk
        have : items.length % n < cells.length := by omega
        simp [this]
      · have hlt : m < items.length := by omega
        have hne2 : items.length % n ≠ m % n :=
          Ne.symm (mod_ne_of_window n m items.length hlt (by omega))
        rw [List.getElem?_set_ne hne2, hwin m hlt (by omega), List.getElem?_append_left hlt]
    · intro i hi hin
      simp only [List.length_append, List.length_singleton] at hi
      have hmod : items.length % n = items.length := Nat.mod_eq_of_lt (by omega)
      have hne2 : items.length % n ≠ i := by omega
      rw [List.getElem?_set_ne hne2]
      exact hzero i (by omega) hin

/-- With a capacity above 32768, slot 32768 holds the value appended to it
while the read through `ring_buffer_get_item` at that slot number returns zero. -/
theorem add_all_init_wraps (rb0 : ring_buffer) (n : Nat) (hbig : 32768 < n) (h16 : n < 65536)
    (items : List ℚ) (hlen : items.length = n) :
    ∃ rb, add_all (ring_buffer_init true rb0 n) items = some rb ∧
      slot rb 32768 = items[32768]? ∧
      ring_buffer_get_item rb (int16_t_of ((32768 : Nat) : Int)) = some 0 := by
  obtain ⟨cells, hrun, _, hwin, _⟩ := add_all_init_state rb0 n (by omega) h16 items
  refine ⟨_, hrun, ?_, ?_⟩
  · have h := hwin 32768 (by omega) (by omega)
    rw [Nat.mod_eq_of_lt hbig] at h
    simpa [slot] using h
  · exact ring_buffer_get_item_negative _ _ (int16_t_of_large 32768 (by omega) (by omega))

/-- On a valid store every index at or above the capacity makes
`ring_buffer_get_item` read `rb->buffer[rb->size]`, one past the allocated
block. -/
theorem ring_buffer_get_item_past_end (rb : ring_buffer) (h : valid rb) (index : Int)
    (hi : (rb.size : Int) ≤ index) : ring_buffer_get_item rb index = none := by
  obtain ⟨_, _, _, cells, hbuf, hlen⟩ := h
  have h1 : ¬ (index < 0) := by omega
  simp [ring_buffer_get_item, h1, hi, slot, hbuf, hlen]

theorem slot_mk (cells : List ℚ) (n c i : Nat) : slot ⟨some cells, n, c⟩ i = cells[i]? := rfl

/-- C1: for every capacity `> 0` in `uint16_t` range, with `malloc` succeeding,
`ring_buffer_init` leaves a store whose `size` is the capacity, whose write
cursor is `0`, whose buffer is a block of `capacity` zeros, and from which
`ring_buffer_get_item` reads `0.0` at every slot number `i < capacity` (the slot
number being converted to the `int16_t` parameter). -/
theorem ring_buffer_init_zeroed (rb : ring_buffer) (capacity : Nat)
    (hpos : 0 < capacity) (h16 : capacity < 65536) :
    (ring_buffer_init true rb capacity).size = capacity ∧
    (ring_buffer_init true rb capacity).index = 0 ∧
    (ring_buffer_init true rb capacity).buffer = some (List.replicate capacity 0) ∧
    ∀ i, i < capacity →
      slot (ring_buffer_init true rb capacity) i = some 0 ∧
      ring_buffer_get_item (ring_buffer_init true rb capacity) (int16_t_of (i : Int)) = some 0 := by
  have hne : capacity ≠ 0 := by omega
  have hsize : (ring_buffer_init true rb capacity).size = capacity := by
    simp [ring_buffer_init, hne]
  refine ⟨hsize, by simp [ring_buffer_init, hne], by simp [ring_buffer_init, hne], ?_⟩
  intro i hi
  refine ⟨slot_init rb capacity i hpos hi, ?_⟩
  by_cases hs : i < 32768
  · rw [int16_t_of_small i hs, ring_buffer_get_item_in_range _ i (by rw [hsize]; exact hi)]
    exact slot_init rb capacity i hpos hi
  · exact ring_buffer_get_item_negative _ _ (int16_t_of_large i (by omega) (by omega))

/-- Witness for C1: capacity 3, slot 2. -/
theorem ring_buffer_init_zeroed_witness :
    (ring_buffer_init true ⟨none, 0, 0⟩ 3).size = 3 ∧
    ring_buffer_get_item (ring_buffer_init true ⟨none, 0, 0⟩ 3) (int16_t_of ((2 : Nat) : Int))
      = some 0 :=
  ⟨(ring_buffer_init_zeroed ⟨none, 0, 0⟩ 3 (by decide) (by decide)).1,
   ((ring_buffer_init_zeroed ⟨none, 0, 0⟩ 3 (by decide) (by decide)).2.2.2 2 (by decide)).2⟩

/-- C2, as stated, fails: a call `ring_buffer_init(&rb, 0)` on an object that
holds a store of capacity 1 returns the very same object, which is a valid store
that accepts further appends; nothing distinguishes the rejected call from a
successful one. -/
theorem ring_buffer_init_zero_leaves_usable_store :
    ring_buffer_init true (ring_buffer_init true ⟨none, 0, 0⟩ 1) 0
      = ring_buffer_init true ⟨none, 0, 0⟩ 1 ∧
    valid (ring_buffer_init true (ring_buffer_init true ⟨none, 0, 0⟩ 1) 0) ∧
    (ring_buffer_add (ring_buffer_init true (ring_buffer_init true ⟨none, 0, 0⟩ 1) 0) 5).isSome
      = true := by
  refine ⟨by decide, ?_, by decide⟩
  exact ⟨by decide, by decide, by decide, [0], by decide, by decide⟩

/-- C2, amended: with capacity 0 `ring_buffer_init` returns at once and leaves
the store object exactly as it was before the call, whether or not `malloc`
would succeed; the function returns `void`, so the result carries no error
indication. -/
theorem ring_buffer_init_zero_unchanged (malloc_ok : Bool) (rb : ring_buffer) :
    ring_buffer_init malloc_ok rb 0 = rb := by
  simp [ring_buffer_init]

/-! ## Append -/

/-- C3: on a valid store with write cursor `c`, `ring_buffer_add` succeeds and
yields a store in which slot `c` holds the new value, the cursor is
`(c + 1) mod capacity`, the capacity is unchanged and every other slot is as
before. -/
theorem ring_buffer_add_spec (rb : ring_buffer) (v : ℚ) (h : valid rb) :
    ∃ rb', ring_buffer_add rb v = some rb' ∧
      slot rb' rb.index = some v ∧
      rb'.index = (rb.index + 1) % rb.size ∧
      rb'.size = rb.size ∧
      ∀ j, j ≠ rb.index → slot rb' j = slot rb j := by
  obtain ⟨hpos, h16, hidx, cells, hbuf, hlen⟩ := h
  have hne : rb.size ≠ 0 := by omega
  have hlt : rb.index < cells.length := by omega
  refine ⟨⟨some (cells.set rb.index v), rb.size, (rb.index + 1) % rb.size % 65536⟩, ?_, ?_, ?_, rfl, ?_⟩
  · simp [ring_buffer_add, hbuf, hlt, hne]
  · simp [slot, hlt]
  · have : (rb.index + 1) % rb.size < rb.size := Nat.mod_lt _ hpos
    exact Nat.mod_eq_of_lt (by omega)
  · intro j hj
    simp [slot, hbuf, List.getElem?_set_ne (Ne.symm hj)]

/-- Witness for C3: appending 9 to the store `[1, 2, 3]` with cursor 2. -/
theorem ring_buffer_add_spec_witness :
    ∃ rb', ring_buffer_add ⟨some [1, 2, 3], 3, 2⟩ 9 = some rb' ∧
      slot rb' 2 = some 9 ∧
      rb'.index = (2 + 1) % 3 ∧
      rb'.size = 3 ∧
      ∀ j, j ≠ 2 → slot rb' j = slot ⟨some [1, 2, 3], 3, 2⟩ j :=
  ring_buffer_add_spec ⟨some [1, 2, 3], 3, 2⟩ 9
    ⟨by decide, by decide, by decide, [1, 2, 3], rfl, rfl⟩

/-- C4, as stated, fails: with capacity 32769 and 32769 appended values that
are all `1`, the value `v_32769` is `1` and sits in slot 32768, yet
`ring_buffer_get_item(store, 32768)` returns `0.0`, because the slot number
wraps to a negative `int16_t`. -/
theorem ring_buffer_get_item_after_fill_wraps :
    ∃ rb, add_all (ring_buffer_init true ⟨none, 0, 0⟩ 32769) (List.replicate 32769 1) = some rb ∧
      slot rb 32768 = some 1 ∧
      (List.replicate 32769 (1 : ℚ))[32768]? = some 1 ∧
      ring_buffer_get_item rb (int16_t_of ((32768 : Nat) : Int)) = some 0 := by
  obtain ⟨rb, hrun, hslot, hget⟩ :=
    add_all_init_wraps ⟨none, 0, 0⟩ 32769 (by norm_num) (by norm_num)
      (List.replicate 32769 1) (List.length_replicate _ _)
  have hv : (List.replicate 32769 (1 : ℚ))[32768]? = some 1 :=
    List.getElem?_replicate_of_lt (by norm_num)
  exact ⟨rb, hrun, hslot.trans hv, hv, hget⟩

/-- C4, amended: after `ring_buffer_init` with capacity `n > 0` and the appends
of `v_1..v_n` in order, the write cursor is back at 0, slot `i` holds `v_{i+1}`
for every `i < n`, and `ring_buffer_get_item(store, i)` returns `v_{i+1}` for
every `i < n` with `i ≤ 32767`. -/
theorem add_all_exactly_capacity (rb0 : ring_buffer) (n : Nat) (hpos : 0 < n) (h16 : n < 65536)
    (vs : List ℚ) (hlen : vs.length = n) :
    ∃ rb, add_all (ring_buffer_init true rb0 n) vs = some rb ∧
      rb.index = 0 ∧ rb.size = n ∧
      ∀ i, i < n →
        slot rb i = vs[i]? ∧
        (i < 32768 → ring_buffer_get_item rb (int16_t_of (i : Int)) = vs[i]?) := by
  obtain ⟨cells, hrun, _, hwin, _⟩ := add_all_init_state rb0 n hpos h16 vs
  refine ⟨_, hrun, ?_, rfl, ?_⟩
  · simp [hlen]
  · intro i hi
    have hs : slot ⟨some cells, n, vs.length % n⟩ i = vs[i]? := by
      have h := hwin i (by omega) (by omega)
      rw [Nat.mod_eq_of_lt hi] at h
      simpa [slot] using h
    refine ⟨hs, fun h15 => ?_⟩
    rw [int16_t_of_small i h15, ring_buffer_get_item_in_range _ i hi]
    exact hs

/-- Witness for C4: capacity 3 filled with 5, 6, 7. -/
theorem add_all_exactly_capacity_witness :
    ∃ rb, add_all (ring_buffer_init true ⟨none, 0, 0⟩ 3) [5, 6, 7] = some rb ∧
      rb.index = 0 ∧ rb.size = 3 ∧
      ∀ i, i < 3 →
        slot rb i = [(5 : ℚ), 6, 7][i]? ∧
        (i < 32768 → ring_buffer_get_item rb (int16_t_of (i : Int)) = [(5 : ℚ), 6, 7][i]?) :=
  add_all_exactly_capacity ⟨none, 0, 0⟩ 3 (by decide) (by decide) [5, 6, 7] rfl

/-- C5: after `ring_buffer_init` with capacity `n > 0` and `k ≥ n` appends
`a_1..a_k`, the cursor is `k mod n` and, for every `j < n`, slot
`(cursor + j) mod n` holds `a_{k-n+1+j}` (the list position `k - n + j`): the
last `n` values, oldest first, starting at the write cursor. -/
theorem add_all_keeps_last (rb0 : ring_buffer) (n : Nat) (hpos : 0 < n) (h16 : n < 65536)
    (items : List ℚ) (hk : n ≤ items.length) :
    ∃ rb, add_all (ring_buffer_init true rb0 n) items = some rb ∧
      rb.index = items.length % n ∧
      ∀ j, j < n →
        slot rb ((rb.index + j) % n) = items[items.length - n + j]? ∧
        items.length - n + j < items.length := by
  obtain ⟨cells, hrun, _, hwin, _⟩ := add_all_init_state rb0 n hpos h16 items
  refine ⟨_, hrun, rfl, ?_⟩
  intro j hj
  have hlt : items.length - n + j < items.length := by omega
  refine ⟨?_, hlt⟩
  have h := hwin (items.length - n + j) hlt (by omega)
  have hmod : (items.length - n + j) % n = (items.length % n + j) % n := by
    rw [Nat.mod_add_mod, ← Nat.add_mod_right (items.length - n + j) n]
    congr 1
    omega
  rw [hmod] at h
  simpa [slot] using h

/-- Witness for C5: capacity 3 and the five appends 1, 2, 3, 4, 5. -/
theorem add_all_keeps_last_witness :
    ∃ rb, add_all (ring_buffer_init true ⟨none, 0, 0⟩ 3) [1, 2, 3, 4, 5] = some rb ∧
      rb.index = 5 % 3 ∧
      ∀ j, j < 3 →
        slot rb ((rb.index + j) % 3) = [(1 : ℚ), 2, 3, 4, 5][5 - 3 + j]? ∧
        5 - 3 + j < 5 :=
  add_all_keeps_last ⟨none, 0, 0⟩ 3 (by decide) (by decide) [1, 2, 3, 4, 5] (by decide)

/-- C6, as stated, fails: with capacity 3 and `3 + 1` appends 1, 2, 3, 4 the
store is `[4, 2, 3]` with cursor 1; slot `1 mod 3` holds 2, the oldest retained
value, and the most recently appended value 4 is in slot 0. -/
theorem add_all_cursor_slot_is_oldest :
    add_all (ring_buffer_init true ⟨none, 0, 0⟩ 3) [1, 2, 3, 4] = some ⟨some [4, 2, 3], 3, 1⟩ ∧
    slot ⟨some [4, 2, 3], 3, 1⟩ (1 % 3) = some 2 ∧
    slot ⟨some [4, 2, 3], 3, 1⟩ (1 % 3) ≠ some 4 ∧
    slot ⟨some [4, 2, 3], 3, 1⟩ 0 = some 4 := by
  decide

/-- C6, amended: after `ring_buffer_init` with capacity `n > 0` and `n + k`
appends (`k < n`), the buffer is a rearrangement (a rotation) of the last `n`
appended values, slot `(k + n - 1) mod n` holds the most recently appended
value, and slot `k mod n`, the write cursor, holds the oldest retained one. -/
theorem add_all_wrapped (rb0 : ring_buffer) (n : Nat) (hpos : 0 < n) (h16 : n < 65536)
    (k : Nat) (hk : k < n) (items : List ℚ) (hlen : items.length = n + k) :
    ∃ rb cells, add_all (ring_buffer_init true rb0 n) items = some rb ∧
      rb.buffer = some cells ∧
      cells = (items.drop k).rotate (n - k) ∧
      cells.Perm (items.drop k) ∧
      slot rb ((k + n - 1) % n) = items[n + k - 1]? ∧
      rb.index = k % n ∧
      slot rb (k % n) = items[k]? := by
  obtain ⟨cells, hrun, hcl, hwin, _⟩ := add_all_init_state rb0 n hpos h16 items
  have hdl : (items.drop k).length = n := by simp [hlen]
  have hrot : cells = (items.drop k).rotate (n - k) := by
    apply List.ext_getElem?
    intro i
    by_cases hi : i < n
    · rw [List.getElem?_rotate (by omega), hdl, List.getElem?_drop]
      by_cases hik : k ≤ i
      · have e : (i + (n - k)) % n = i - k := by
          have : i + (n - k) = (i - k) + n := by omega
          rw [this, Nat.add_mod_right]
          exact Nat.mod_eq_of_lt (by omega)
        rw [e]
        have h := hwin i (by omega) (by omega)
        rw [Nat.mod_eq_of_lt hi] at h
        rw [h]
        congr 1
        omega
      · have e : (i + (n - k)) % n = i + (n - k) := Nat.mod_eq_of_lt (by omega)
        rw [e]
        have h := hwin (i + n) (by omega) (by omega)
        rw [Nat.add_mod_right, Nat.mod_eq_of_lt hi] at h
        rw [h]
        congr 1
        omega
    · rw [List.getElem?_eq_none (by omega), List.getElem?_eq_none (by simp [hdl]; omega)]
  refine ⟨_, cells, hrun, rfl, hrot, ?_, ?_, ?_, ?_⟩
  · rw [hrot]
    exact List.rotate_perm _ _
  · have h := hwin (n + k - 1) (by omega) (by omega)
    have e : (n + k - 1) % n = (k + n - 1) % n := by
      congr 1
      omega
    rw [e] at h
    simpa [slot] using h
  · simp [hlen]
  · have h := hwin k (by omega) (by omega)
    simpa [slot] using h

/-- Witness for C6: capacity 3 and `3 + 1` appends. -/
theorem add_all_wrapped_witness :
    ∃ rb cells, add_all (ring_buffer_init true ⟨none, 0, 0⟩ 3) [1, 2, 3, 4] = some rb ∧
      rb.buffer = some cells ∧
      cells = ([(1 : ℚ), 2, 3, 4].drop 1).rotate (3 - 1) ∧
      cells.Perm ([(1 : ℚ), 2, 3, 4].drop 1) ∧
      slot rb ((1 + 3 - 1) % 3) = [(1 : ℚ), 2, 3, 4][3 + 1 - 1]? ∧
      rb.index = 1 % 3 ∧
      slot rb (1 % 3) = [(1 : ℚ), 2, 3, 4][1]? :=
  add_all_wrapped ⟨none, 0, 0⟩ 3 (by decide) (by decide) 1 (by decide) [1, 2, 3, 4] rfl

/-- C7: `ring_buffer_init` with a capacity `n > 0` yields a valid store, and
every sequence of `ring_buffer_add` calls from it succeeds and ends in a valid
store of the same capacity: `0 < size`, `index < size`, and the buffer has
exactly `size` slots, so the next append writes inside the buffer. -/
theorem add_all_preserves_valid (rb0 : ring_buffer) (n : Nat) (hpos : 0 < n) (h16 : n < 65536)
    (items : List ℚ) :
    valid (ring_buffer_init true rb0 n) ∧
    ∃ rb, add_all (ring_buffer_init true rb0 n) items = some rb ∧
      valid rb ∧ rb.size = n ∧
      ∃ cells, rb.buffer = some cells ∧ rb.index < cells.length := by
  have hne : n ≠ 0 := by omega
  constructor
  · refine ⟨?_, ?_, ?_, List.replicate n 0, ?_, ?_⟩ <;> simp [ring_buffer_init, hne] <;> omega
  · obtain ⟨cells, hrun, hcl, _, _⟩ := add_all_init_state rb0 n hpos h16 items
    have hc : items.length % n < n := Nat.mod_lt _ hpos
    exact ⟨_, hrun, ⟨hpos, h16, hc, cells, rfl, hcl⟩, rfl, cells, rfl, by simpa [hcl] using hc⟩

/-- Witness for C7: capacity 2 and three appends. -/
theorem add_all_preserves_valid_witness :
    valid (ring_buffer_init true ⟨none, 0, 0⟩ 2) ∧
    ∃ rb, add_all (ring_buffer_init true ⟨none, 0, 0⟩ 2) [7, 8, 9] = some rb ∧
      valid rb ∧ rb.size = 2 ∧
      ∃ cells, rb.buffer = some cells ∧ rb.index < cells.length :=
  add_all_preserves_valid ⟨none, 0, 0⟩ 2 (by decide) (by decide) [7, 8, 9]

/-! ## Indexed read -/

/-- C8: for every store, whatever its fields, and every negative index (such as
`-1`), `ring_buffer_get_item` returns exactly `0.0`. -/
theorem ring_buffer_get_item_neg_index (rb : ring_buffer) (index : Int) (h : index < 0) :
    ring_buffer_get_item rb index = some 0 :=
  ring_buffer_get_item_negative rb index h

/-- Witness for C8: index `-1` on a store holding non-zero samples. -/
theorem ring_buffer_get_item_neg_index_witness :
    ring_buffer_get_item ⟨some [4, 2, 3], 3, 1⟩ (-1) = some 0 :=
  ring_buffer_get_item_neg_index ⟨some [4, 2, 3], 3, 1⟩ (-1) (by decide)

/-- C9, failing input: on the valid store made by `ring_buffer_init` with
capacity 10, `ring_buffer_get_item` at index 10 (the call `trapezoidal` makes)
reads `rb->buffer[10]`, outside the ten allocated slots, and so returns no
defined value; indices `-1` and `9` do return one. -/
theorem ring_buffer_get_item_capacity_out_of_bounds :
    valid (ring_buffer_init true ⟨none, 0, 0⟩ 10) ∧
    ring_buffer_get_item (ring_buffer_init true ⟨none, 0, 0⟩ 10) 10 = none ∧
    ring_buffer_get_item (ring_buffer_init true ⟨none, 0, 0⟩ 10) 9 = some 0 ∧
    ring_buffer_get_item (ring_buffer_init true ⟨none, 0, 0⟩ 10) (-1) = some 0 := by
  refine ⟨⟨by decide, by decide, by decide, List.replicate 10 0, rfl, rfl⟩, ?_, ?_, ?_⟩ <;> decide

/-! ## Derivative -/

theorem int16_t_of_pred_int (i : Nat) (h : i ≤ 32768) :
    int16_t_of ((i : Int) - 1) = (i : Int) - 1 := by
  unfold int16_t_of
  omega

theorem get_item_this (cells : List ℚ) (n c i : Nat) (hlen : cells.length = n) (hi : i < n) :
    ring_buffer_get_item ⟨some cells, n, c⟩ (i : Int) = some (cells.getD i 0) := by
  rw [ring_buffer_get_item_in_range _ i hi, slot_mk]
  have : i < cells.length := by omega
  simp [List.getD_eq_getElem?_getD, List.getElem?_eq_getElem this]

theorem get_item_last (cells : List ℚ) (n c i : Nat) (hlen : cells.length = n) (hi : i ≤ n) :
    ring_buffer_get_item ⟨some cells, n, c⟩ ((i : Int) - 1)
      = some (if i = 0 then 0 else cells.getD (i - 1) 0) := by
  by_cases h0 : i = 0
  · subst h0
    rw [ring_buffer_get_item_negative _ _ (by decide)]
    rfl
  · have e : (i : Int) - 1 = ((i - 1 : Nat) : Int) := by omega
    rw [e, get_item_this cells n c (i - 1) hlen (by omega), if_neg h0]

theorem calculate_integral_loop_eq (cells : List ℚ) (n c m : Nat)
    (hlen : cells.length = n) (hm : m ≤ n) (h15 : m ≤ 32768) :
    calculate_integral_loop ⟨some cells, n, c⟩ m = some (pair_sum cells m) := by
  induction m with
  | zero => simp [calculate_integral_loop, pair_sum]
  | succ i ih =>
    simp only [calculate_integral_loop]
    rw [ih (by omega) (by omega), int16_t_of_small i (by omega),
      int16_t_of_pred_int i (by omega), get_item_this cells n c i hlen (by omega),
      get_item_last cells n c i hlen (by omega)]
    simp only [pair_sum, Finset.sum_range_succ]

theorem pair_sum_closed (cells : List ℚ) (m : Nat) :
    pair_sum cells m = 2 * (Finset.range m).sum (fun i => cells.getD i 0)
      - (if m = 0 then 0 else cells.getD (m - 1) 0) := by
  induction m with
  | zero => simp [pair_sum]
  | succ i ih =>
    have hs : pair_sum cells (i + 1)
        = pair_sum cells i + (cells.getD i 0 + (if i = 0 then 0 else cells.getD (i - 1) 0)) := by
      simp only [pair_sum, Finset.sum_range_succ]
    rw [hs, ih, Finset.sum_range_succ]
    simp only [Nat.add_sub_cancel, Nat.succ_ne_zero, if_false]
    ring

theorem sum_range_getD (cells : List ℚ) :
    (Finset.range cells.length).sum (fun i => cells.getD i 0) = cells.sum := by
  induction cells with
  | nil => simp
  | cons a l ih =>
    rw [List.length_cons, Finset.sum_range_succ', List.sum_cons]
    simp only [List.getD_cons_succ, List.getD_cons_zero]
    rw [ih, add_comm]

/-- Value of `calculate_integral` on a store whose buffer has exactly `size`
slots, for a capacity of at most 32768. -/
theorem calculate_integral_value (cells : List ℚ) (n c : Nat) (dt : ℚ)
    (hlen : cells.length = n) (hn : n ≤ 32768) :
    calculate_integral ⟨some cells, n, c⟩ dt = some (pair_sum cells n * dt / 2) := by
  simp only [calculate_integral]
  rw [calculate_integral_loop_eq cells n c n hlen (le_refl n) hn]

/-- On a valid store of capacity at most 32767 `trapezoidal` reads
`rb->buffer[rb->size]`, one past the allocated block, whatever `dt` is. -/
theorem trapezoidal_reads_past_end (rb : ring_buffer) (dt : ℚ) (hv : valid rb)
    (hn : rb.size ≤ 32767) : trapezoidal rb dt = none := by
  have hlast : ring_buffer_get_item rb (int16_t_of (rb.size : Int)) = none := by
    rw [int16_t_of_small rb.size (by omega)]
    exact ring_buffer_get_item_past_end rb hv _ (le_refl _)
  unfold trapezoidal
  rw [hlast]
  cases ring_buffer_get_item rb 0 with
  | none => rfl
  | some x_first =>
    cases trapezoidal_loop rb (rb.size - 1) with
    | none => rfl
    | some x_sum_between => rfl

/-- C12, failing input: on the valid store `[1, 2, 3]` of capacity 3 with
`dt = 2`, `trapezoidal` reads `x_last` from `rb->buffer[3]`, outside the three
allocated slots, and has no defined result. Where a fourth double follows the
three slots (here `4`), the result is `15 = 2/2 * (1 + 2 * (2 + 3) + 4)`: the
doubled sum runs over slots `1..n-1`, while the formula of the claim, doubling
slots `1..n-2` only, gives `2/2 * (1 + 2 * 2 + 4) = 9`. -/
theorem trapezoidal_off_by_one :
    valid ⟨some [1, 2, 3], 3, 0⟩ ∧
    trapezoidal ⟨some [1, 2, 3], 3, 0⟩ 2 = none ∧
    trapezoidal ⟨some [1, 2, 3, 4], 3, 0⟩ 2 = some 15 ∧
    (2 : ℚ) / 2 * (1 + 2 * 2 + 4) = 9 := by
  have i1 : int16_t_of ((1 : Nat) : Int) = 1 := by decide
  have i2 : int16_t_of ((2 : Nat) : Int) = 2 := by decide
  have i3 : int16_t_of (3 : Int) = 3 := by decide
  have g0 : ring_buffer_get_item ⟨some [1, 2, 3, 4], 3, 0⟩ 0 = some 1 := by decide
  have g1 : ring_buffer_get_item ⟨some [1, 2, 3, 4], 3, 0⟩ 1 = some 2 := by decide
  have g2 : ring_buffer_get_item ⟨some [1, 2, 3, 4], 3, 0⟩ 2 = some 3 := by decide
  have g3 : ring_buffer_get_item ⟨some [1, 2, 3, 4], 3, 0⟩ 3 = some 4 := by decide
  have hl : trapezoidal_loop ⟨some [1, 2, 3, 4], 3, 0⟩ (3 - 1) = some (0 + 2 + 3) := by
    simp only [trapezoidal_loop, Nat.cast_ofNat, Nat.cast_one, i1, i2, g1, g2]
  refine ⟨⟨by decide, by decide, by decide, _, rfl, rfl⟩, by decide, ?_, by norm_num⟩
  unfold trapezoidal
  simp only [g0, hl, Nat.cast_ofNat, i3, g3]
  norm_num

/-! ## The fill loop of `main` -/

/-- After `ring_buffer_init` with capacity `n` and exactly `n` appends the buffer
is the list of appended values and the cursor is back at 0. -/
theorem add_all_init_full (rb0 : ring_buffer) (n : Nat) (hpos : 0 < n) (h16 : n < 65536)
    (items : List ℚ) (hlen : items.length = n) :
    add_all (ring_buffer_init true rb0 n) items = some ⟨some items, n, 0⟩ := by
  obtain ⟨cells, hrun, hcl, hwin, _⟩ := add_all_init_state rb0 n hpos h16 items
  have hc : cells = items := by
    apply List.ext_getElem?
    intro i
    by_cases hi : i < n
    · have h := hwin i (by omega) (by omega)
      rwa [Nat.mod_eq_of_lt hi] at h
    · rw [List.getElem?_eq_none (by omega), List.getElem?_eq_none (by omega)]
  rw [hrun, hc, hlen, Nat.mod_self]

theorem samples_length (n : Nat) (t : ℚ) : (samples n t).length = n := by
  simp [samples]

theorem samples_getD (n i : Nat) (t : ℚ) (h : i < n) :
    (samples n t).getD i 0 = f (((i + 1 : Nat) : ℚ) * t) := by
  simp [samples, List.getD_eq_getElem?_getD, List.getElem?_map, List.getElem?_range h]

theorem sum_cubes (n : Nat) (t : ℚ) :
    (Finset.range n).sum (fun i => f (((i + 1 : Nat) : ℚ) * t))
      = t ^ 3 * ((n : ℚ) * ((n : ℚ) + 1) / 2) ^ 2 := by
  induction n with
  | zero => simp
  | succ k ih =>
    rw [Finset.sum_range_succ, ih]
    simp only [f]
    push_cast
    ring

theorem pair_sum_samples (n : Nat) (t : ℚ) (hpos : 0 < n) :
    pair_sum (samples n t) n
      = 2 * (t ^ 3 * ((n : ℚ) * ((n : ℚ) + 1) / 2) ^ 2) - ((n : ℚ) * t) ^ 3 := by
  rw [pair_sum_closed]
  have hs : (Finset.range n).sum (fun i => (samples n t).getD i 0)
      = (Finset.range n).sum (fun i => f (((i + 1 : Nat) : ℚ) * t)) :=
    Finset.sum_congr rfl (fun i hi => samples_getD n i t (Finset.mem_range.mp hi))
  have hn : n ≠ 0 := by omega
  have hc : ((n - 1 + 1 : Nat) : ℚ) = (n : ℚ) := by
    congr 1
    omega
  rw [hs, sum_cubes, if_neg hn, samples_getD n (n - 1) t (by omega), hc]
  simp only [f]
  ring

/-- The appends of `samples (10 * r) (1 / r)` after `ring_buffer_init` with
capacity `10 * r` end with the samples in the slots and the cursor back at 0. -/
theorem add_all_samples (rb0 : ring_buffer) (r : Nat) (hpos : 0 < r) (h16 : 10 * r < 65536) :
    add_all (ring_buffer_init true rb0 (10 * r)) (samples (10 * r) (1 / (r : ℚ)))
      = some ⟨some (samples (10 * r) (1 / (r : ℚ))), 10 * r, 0⟩ :=
  add_all_init_full rb0 (10 * r) (by omega) h16 _ (samples_length _ _)

/-- Value of `calculate_integral` on the store of capacity `10 * r` holding
`samples (10 * r) (1 / r)`: the exact integral 2500 plus `25 / r^2`. -/
theorem calculate_integral_samples (r c : Nat) (hpos : 0 < r) (hr : 10 * r ≤ 32768) :
    calculate_integral ⟨some (samples (10 * r) (1 / (r : ℚ))), 10 * r, c⟩ (1 / (r : ℚ))
      = some (2500 + 25 / (r : ℚ) ^ 2) := by
  have hr0 : (r : ℚ) ≠ 0 := by
    have : 0 < (r : ℚ) := by exact_mod_cast hpos
    exact ne_of_gt this
  rw [calculate_integral_value _ (10 * r) c _ (samples_length _ _) hr,
    pair_sum_samples (10 * r) _ (by omega)]
  congr 1
  push_cast
  field_simp
  ring

theorem calculate_derivative_value (cells : List ℚ) (n c index : Nat) (dt : ℚ)
    (hlen : cells.length = n) (hi : index < n) (h15 : index < 32768) :
    calculate_derivative ⟨some cells, n, c⟩ index dt
      = some ((cells.getD index 0 - (if index = 0 then 0 else cells.getD (index - 1) 0)) / dt) := by
  unfold calculate_derivative
  rw [int16_t_of_small index h15, int16_t_of_pred_int index (by omega),
    get_item_this cells n c index hlen hi, get_item_last cells n c index hlen (by omega)]

theorem samples_prev (n i : Nat) (t : ℚ) (h : i ≤ n) :
    (if i = 0 then 0 else (samples n t).getD (i - 1) 0) = f ((i : ℚ) * t) := by
  by_cases h0 : i = 0
  · subst h0
    simp [f]
  · have hc : ((i - 1 + 1 : Nat) : ℚ) = (i : ℚ) := by
      congr 1
      omega
    rw [if_neg h0, samples_getD n (i - 1) t (by omega), hc]

/-- Value of `calculate_derivative` on the store of capacity `10 * r` holding
`samples (10 * r) (1 / r)`, at the sample `x = s`: `3 s^2 - 3 s / r + 1 / r^2`. -/
theorem calculate_derivative_samples (r s c : Nat) (hpos : 0 < r) (hs1 : 1 ≤ s)
    (hs10 : s ≤ 10) (hr : 10 * r ≤ 32768) :
    calculate_derivative ⟨some (samples (10 * r) (1 / (r : ℚ))), 10 * r, c⟩ (s * r - 1)
        (1 / (r : ℚ))
      = some (3 * (s : ℚ) ^ 2 - 3 * (s : ℚ) / (r : ℚ) + 1 / (r : ℚ) ^ 2) := by
  have hr0 : (r : ℚ) ≠ 0 := by
    have : 0 < (r : ℚ) := by exact_mod_cast hpos
    exact ne_of_gt this
  have hsr : 1 ≤ s * r := Nat.mul_pos hs1 hpos
  have hle : s * r ≤ 10 * r := Nat.mul_le_mul_right r hs10
  have hlt : s * r - 1 < 10 * r := by omega
  have hc : ((s * r - 1 + 1 : Nat) : ℚ) = (s : ℚ) * (r : ℚ) := by
    rw [Nat.sub_add_cancel hsr]
    push_cast
    ring
  have hp : ((s * r - 1 : Nat) : ℚ) = (s : ℚ) * (r : ℚ) - 1 := by
    rw [Nat.cast_sub hsr]
    push_cast
    ring
  rw [calculate_derivative_value _ (10 * r) c _ _ (samples_length _ _) hlt (by omega),
    samples_prev (10 * r) (s * r - 1) _ (by omega), samples_getD _ _ _ hlt, hc, hp]
  congr 1
  simp only [f]
  field_simp
  ring

/-- C13, failing input: for the store of capacity 10 filled with the cubes of
1..10 and time interval 1, `calculate_integral` returns `2525`, not the `2524.5`
of the header comment of `main.c`; `2524.5` is the composite trapezoidal rule
over the ten samples, and the code exceeds it by `dt * slot[0] / 2 = 0.5`. -/
theorem calculate_integral_dt_one :
    samples 10 1 = [1, 8, 27, 64, 125, 216, 343, 512, 729, 1000] ∧
    add_all (ring_buffer_init true ⟨none, 0, 0⟩ 10) [1, 8, 27, 64, 125, 216, 343, 512, 729, 1000]
      = some cubes_store ∧
    calculate_integral cubes_store 1 = some 2525 ∧
    composite_trapezoid [1, 8, 27, 64, 125, 216, 343, 512, 729, 1000] 1 = 5049 / 2 ∧
    (2525 : ℚ) ≠ 5049 / 2 := by
  refine ⟨?_, by decide, ?_, ?_, by norm_num⟩
  · simp [samples, f, List.range_succ]
    norm_num
  · unfold cubes_store
    rw [calculate_integral_value [1, 8, 27, 64, 125, 216, 343, 512, 729, 1000] 10 0 1 rfl
      (by norm_num)]
    simp [pair_sum, Finset.sum_range_succ]
    norm_num
  · simp [composite_trapezoid]
    norm_num

/-- C14: for the store of capacity 10000 filled by the fill loop of `main` with
`(i / 1000)^3`, `i = 1 .. 10000`, `calculate_integral` with time interval
`1 / 1000` returns exactly `2500.000025`. -/
theorem calculate_integral_dt_milli (rb0 : ring_buffer) :
    ∃ rb, add_all (ring_buffer_init true rb0 10000) (samples 10000 (1 / 1000)) = some rb ∧
      calculate_integral rb (1 / 1000) = some (2500000025 / 1000000) := by
  have hfill := add_all_samples rb0 1000 (by norm_num) (by norm_num)
  have hval := calculate_integral_samples 1000 0 (by norm_num) (by norm_num)
  have e1 : 10 * 1000 = 10000 := by norm_num
  have e2 : ((1000 : Nat) : ℚ) = 1000 := by norm_num
  rw [e1, e2] at hfill hval
  refine ⟨_, hfill, ?_⟩
  rw [hval]
  norm_num

/-- C15: for the store of capacity 10000 filled by the fill loop of `main` with
`(i / 1000)^3`, `i = 1 .. 10000`, `calculate_derivative` with time interval
`1 / 1000` at the display index `1000 * s - 1`, `s = 1 .. 10`, returns
`3 s^2 - 3 s / 1000 + 1 / 10^6`, which is within `0.005` of the `s`-th of the
values 3, 11.99, 26.99, 47.99, 74.99, 107.98, 146.98, 191.98, 242.97, 299.97. -/
theorem calculate_derivative_dt_milli (rb0 : ring_buffer) :
    ∃ rb, add_all (ring_buffer_init true rb0 10000) (samples 10000 (1 / 1000)) = some rb ∧
      ∀ s : Nat, 1 ≤ s → s ≤ 10 →
        ∃ d, calculate_derivative rb (1000 * s - 1) (1 / 1000) = some d ∧
          d = 3 * (s : ℚ) ^ 2 - 3 * (s : ℚ) / 1000 + 1 / 1000000 ∧
          |d - ([3, 1199 / 100, 2699 / 100, 4799 / 100, 7499 / 100, 10798 / 100,
              14698 / 100, 19198 / 100, 24297 / 100, 29997 / 100] : List ℚ).getD (s - 1) 0|
            < 5 / 1000 := by
  have hfill := add_all_samples rb0 1000 (by norm_num) (by norm_num)
  have e1 : 10 * 1000 = 10000 := by norm_num
  have e2 : ((1000 : Nat) : ℚ) = 1000 := by norm_num
  rw [e1, e2] at hfill
  refine ⟨_, hfill, ?_⟩
  intro s hs1 hs10
  have hval := calculate_derivative_samples 1000 s 0 (by norm_num) hs1 hs10 (by norm_num)
  rw [e1, e2, Nat.mul_comm s 1000] at hval
  refine ⟨_, hval, by norm_num, ?_⟩
  interval_cases s <;> simp <;> norm_num [abs_lt]

/-! ## Convergence -/

theorem valid_cases (rb : ring_buffer) (hv : valid rb) :
    ∃ cells, rb = ⟨some cells, rb.size, rb.index⟩ ∧ cells.length = rb.size := by
  obtain ⟨b, n, c⟩ := rb
  obtain ⟨_, _, _, cells, hbuf, hlen⟩ := hv
  simp only at hbuf hlen
  subst hbuf
  exact ⟨cells, rfl, hlen⟩

theorem pair_sum_full (cells : List ℚ) :
    pair_sum cells cells.length = 2 * cells.sum - cells.getLastD 0 := by
  rw [pair_sum_closed, sum_range_getD]
  cases cells with
  | nil => simp
  | cons a l =>
    simp [List.getLast?_eq_getElem?, List.getD_eq_getElem?_getD]

theorem getLastD_snoc (l : List ℚ) (x : ℚ) : (l ++ [x]).getLastD 0 = x := by
  simp

theorem composite_trapezoid_cons_snoc (a : ℚ) (mid : List ℚ) (lst dt : ℚ) :
    composite_trapezoid (a :: (mid ++ [lst])) dt = dt / 2 * (a + 2 * mid.sum + lst) := by
  have hl : (a :: (mid ++ [lst])).getLastD 0 = lst := by
    rw [← List.cons_append]
    exact getLastD_snoc (a :: mid) lst
  unfold composite_trapezoid
  rw [hl]
  simp

/-- C18: for every valid store of capacity `n`, `1 ≤ n ≤ 32767`, with slots
`x_0 .. x_{n-1}`, and every `dt`, `calculate_integral` returns the composite
trapezoidal rule over the `n + 1` points `0, x_0, .., x_{n-1}`, which equals
`dt * (x_0 + .. + x_{n-1}) - dt * x_{n-1} / 2`; for `n ≥ 2` this is the
composite trapezoidal rule over `x_0 .. x_{n-1}` plus `dt * x_0 / 2`. -/
theorem calculate_integral_composite_trapezoid (rb : ring_buffer) (cells : List ℚ) (dt : ℚ)
    (hv : valid rb) (hbuf : rb.buffer = some cells) (hn : rb.size ≤ 32767) :
    calculate_integral rb dt = some (composite_trapezoid (0 :: cells) dt) ∧
    composite_trapezoid (0 :: cells) dt = dt * cells.sum - dt * cells.getLastD 0 / 2 ∧
    (2 ≤ rb.size →
      calculate_integral rb dt = some (composite_trapezoid cells dt + dt * cells.headD 0 / 2)) := by
  obtain ⟨cells', hrb, hlen⟩ := valid_cases rb hv
  have e : cells' = cells := by
    rw [hrb] at hbuf
    exact Option.some.inj hbuf
  subst e
  have hpos : 0 < cells'.length := by
    rw [hlen]
    exact hv.1
  have hval : calculate_integral rb dt = some ((2 * cells'.sum - cells'.getLastD 0) * dt / 2) := by
    rw [hrb, calculate_integral_value cells' rb.size rb.index dt hlen (by omega), ← hlen,
      pair_sum_full]
  rcases List.eq_nil_or_concat cells' with hnil | ⟨ini, lst, hc⟩
  · rw [hnil] at hpos
    simp at hpos
  · rw [List.concat_eq_append] at hc
    subst hc
    have hsum : (ini ++ [lst]).sum = ini.sum + lst := by simp
    have hlast : (ini ++ [lst]).getLastD 0 = lst := getLastD_snoc ini lst
    have htrap : composite_trapezoid (0 :: (ini ++ [lst])) dt
        = dt * (ini ++ [lst]).sum - dt * (ini ++ [lst]).getLastD 0 / 2 := by
      rw [composite_trapezoid_cons_snoc, hsum, hlast]
      ring
    refine ⟨?_, htrap, ?_⟩
    · rw [hval, htrap]
      congr 1
      ring
    · intro h2
      rw [hval, hsum, hlast]
      congr 1
      cases ini with
      | nil =>
        rw [← hlen] at h2
        simp at h2
      | cons a mid =>
        rw [List.cons_append, composite_trapezoid_cons_snoc]
        simp only [List.sum_cons, List.headD_cons]
        ring

/-- Witness for C18: the store of cubes with `dt = 1`. -/
theorem calculate_integral_composite_trapezoid_witness :
    calculate_integral cubes_store 1
      = some (composite_trapezoid (0 :: [1, 8, 27, 64, 125, 216, 343, 512, 729, 1000]) 1) ∧
    composite_trapezoid (0 :: [1, 8, 27, 64, 125, 216, 343, 512, 729, 1000]) 1
      = 1 * [(1 : ℚ), 8, 27, 64, 125, 216, 343, 512, 729, 1000].sum
        - 1 * [(1 : ℚ), 8, 27, 64, 125, 216, 343, 512, 729, 1000].getLastD 0 / 2 ∧
    (2 ≤ cubes_store.size →
      calculate_integral cubes_store 1
        = some (composite_trapezoid [1, 8, 27, 64, 125, 216, 343, 512, 729, 1000] 1
          + 1 * [(1 : ℚ), 8, 27, 64, 125, 216, 343, 512, 729, 1000].headD 0 / 2)) :=
  calculate_integral_composite_trapezoid cubes_store
    [1, 8, 27, 64, 125, 216, 343, 512, 729, 1000] 1
    ⟨by decide, by decide, by decide, _, rfl, rfl⟩ rfl (by decide)

/-! ## Signed index -/

/-- C19: `ring_buffer_get_item` takes an `int16_t` index while capacities and
loop counters are `uint16_t`. For every store and every slot number
`i < capacity`: when `32768 ≤ i` (so the capacity exceeds 32768) the converted
index is negative and the read returns `0.0` whatever the slots hold; when the
capacity is at most 32767 the read returns slot `i`. -/
theorem ring_buffer_get_item_signed_index (rb : ring_buffer) (i : Nat)
    (h16 : rb.size < 65536) (hi : i < rb.size) :
    (32768 ≤ i →
      int16_t_of (i : Int) < 0 ∧ ring_buffer_get_item rb (int16_t_of (i : Int)) = some 0) ∧
    (rb.size ≤ 32767 → ring_buffer_get_item rb (int16_t_of (i : Int)) = slot rb i) := by
  constructor
  · intro hbig
    have hneg : int16_t_of (i : Int) < 0 := int16_t_of_large i hbig (by omega)
    exact ⟨hneg, ring_buffer_get_item_negative rb _ hneg⟩
  · intro hsmall
    rw [int16_t_of_small i (by omega)]
    exact ring_buffer_get_item_in_range rb i hi

/-- Witness for C19: slot 39999 of a store of capacity 40000 holding sevens
reads as `0.0`; slot 9 of the store of cubes reads as the slot. -/
theorem ring_buffer_get_item_signed_index_witness :
    (int16_t_of ((39999 : Nat) : Int) < 0 ∧
      ring_buffer_get_item ⟨some (List.replicate 40000 7), 40000, 0⟩
        (int16_t_of ((39999 : Nat) : Int)) = some 0) ∧
    ring_buffer_get_item cubes_store (int16_t_of ((9 : Nat) : Int)) = slot cubes_store 9 :=
  ⟨(ring_buffer_get_item_signed_index ⟨some (List.replicate 40000 7), 40000, 0⟩ 39999
      (by norm_num) (by norm_num)).1 (by norm_num),
   (ring_buffer_get_item_signed_index cubes_store 9 (by decide) (by decide)).2 (by decide)⟩

end NumericalCalculus
